import Mathlib

/-!
Verification of the FleetLogix synthetic-data generation engine
(`src/scripts/01_data_generation.py`), shallowly embedded in Lean 4.

Times are modelled as integer minutes since an epoch; a calendar date is the
integer day index `t / 1440`.  Python floats are modelled as real numbers.
`random.uniform(a, b)` draws are modelled as universally quantified reals in
`[a, b]`, `np.random.choice` draws as values in the support of the given
probability vector, and the seeded random streams as explicit function
arguments.
-/

namespace FleetLogix

/-! ### Cardinality allocation (`generate_deliveries`, step 1–2)

`generate_deliveries` draws an initial per-trip delivery count from
`{2,3,4,5,6}` and then corrects the vector so that it sums to the exact
target, never leaving `[2, 6]`.  The upward slack is `(6 - per_trip).sum()`,
the downward slack `(per_trip - 2).sum()`; the correction loops scan the
trips cyclically, bumping any entry strictly inside the bound. -/

/-- Upward slack `capacity = (6 - per_trip).sum()` of the count vector. -/
def capUp (l : List Nat) : Nat := (l.map (fun c => 6 - c)).sum

/-- Downward slack `capacity = (per_trip - 2).sum()` of the count vector. -/
def capDown (l : List Nat) : Nat := (l.map (fun c => c - 2)).sum

/-- The increment correction loop of `generate_deliveries`:
`while diff > 0: if per_trip[i] < 6: per_trip[i] += 1; diff -= 1; i = (i+1) % n`.
The source loop is unbounded; `fuel` bounds the number of iterations and is
chosen large enough in `adjustPerTrip` that it never runs out on feasible
input. -/
def incLoop : List Nat → Nat → Nat → Nat → Option (List Nat)
  | _, _, _, 0 => none
  | l, i, diff, fuel + 1 =>
    if diff = 0 then some l
    else if l.getD i 0 < 6 then
      incLoop (l.set i (l.getD i 0 + 1)) ((i + 1) % l.length) (diff - 1) fuel
    else incLoop l ((i + 1) % l.length) diff fuel

/-- The decrement correction loop of `generate_deliveries`:
`while need > 0: if per_trip[i] > 2: per_trip[i] -= 1; need -= 1; i = (i+1) % n`. -/
def decLoop : List Nat → Nat → Nat → Nat → Option (List Nat)
  | _, _, _, 0 => none
  | l, i, need, fuel + 1 =>
    if need = 0 then some l
    else if 2 < l.getD i 0 then
      decLoop (l.set i (l.getD i 0 - 1)) ((i + 1) % l.length) (need - 1) fuel
    else decLoop l ((i + 1) % l.length) need fuel

/-- The per-trip count adjustment of `generate_deliveries` (steps 2–4 of the
spec's CardinalityAllocator): compute `diff = target - sum(per_trip)`, check
the corresponding slack *before* running the correction loop (the source
raises `RuntimeError` there, modelled as `none`), then redistribute. -/
def adjustPerTrip (perTrip : List Nat) (target : Nat) : Option (List Nat) :=
  let n := perTrip.length
  let current := perTrip.sum
  if current < target then
    let diff := target - current
    if capUp perTrip < diff then none
    else incLoop perTrip 0 diff (diff * n + n)
  else if target < current then
    let need := current - target
    if capDown perTrip < need then none
    else decLoop perTrip 0 need (need * n + n)
  else some perTrip

theorem capUp_cons (a : Nat) (t : List Nat) : capUp (a :: t) = (6 - a) + capUp t := by
  simp [capUp]

theorem capDown_cons (a : Nat) (t : List Nat) : capDown (a :: t) = (a - 2) + capDown t := by
  simp [capDown]

theorem getD_mem : ∀ (l : List Nat) (i : Nat), i < l.length → l.getD i 0 ∈ l
  | [], i, h => by simp at h
  | a :: t, 0, _ => by
    rw [List.getD_cons_zero]
    exact List.mem_cons_self a t
  | a :: t, i + 1, h => by
    have ht := getD_mem t i (by simpa using h)
    rw [List.getD_cons_succ]
    exact List.mem_cons_of_mem a ht

theorem sum_set_add_one : ∀ (l : List Nat) (i : Nat), i < l.length →
    (l.set i (l.getD i 0 + 1)).sum = l.sum + 1
  | [], i, h => by simp at h
  | a :: t, 0, _ => by
    rw [List.getD_cons_zero, List.set_cons_zero, List.sum_cons, List.sum_cons]
    omega
  | a :: t, i + 1, h => by
    have ht := sum_set_add_one t i (by simpa using h)
    rw [List.getD_cons_succ, List.set_cons_succ, List.sum_cons, List.sum_cons, ht]
    omega

theorem sum_set_sub_one : ∀ (l : List Nat) (i : Nat), i < l.length →
    0 < l.getD i 0 → (l.set i (l.getD i 0 - 1)).sum + 1 = l.sum
  | [], i, h, _ => by simp at h
  | a :: t, 0, _, hpos => by
    rw [List.getD_cons_zero] at hpos
    rw [List.getD_cons_zero, List.set_cons_zero, List.sum_cons, List.sum_cons]
    omega
  | a :: t, i + 1, h, hpos => by
    rw [List.getD_cons_succ] at hpos
    have ht := sum_set_sub_one t i (by simpa using h) hpos
    rw [List.getD_cons_succ, List.set_cons_succ, List.sum_cons, List.sum_cons]
    omega

theorem capUp_set : ∀ (l : List Nat) (i : Nat), i < l.length → l.getD i 0 < 6 →
    capUp (l.set i (l.getD i 0 + 1)) + 1 = capUp l
  | [], i, h, _ => by simp at h
  | a :: t, 0, _, hlt => by
    rw [List.getD_cons_zero] at hlt
    rw [List.getD_cons_zero, List.set_cons_zero, capUp_cons, capUp_cons]
    omega
  | a :: t, i + 1, h, hlt => by
    rw [List.getD_cons_succ] at hlt
    have ht := capUp_set t i (by simpa using h) hlt
    rw [List.getD_cons_succ, List.set_cons_succ, capUp_cons, capUp_cons]
    omega

theorem capDown_set : ∀ (l : List Nat) (i : Nat), i < l.length → 2 < l.getD i 0 →
    capDown (l.set i (l.getD i 0 - 1)) + 1 = capDown l
  | [], i, h, _ => by simp at h
  | a :: t, 0, _, hlt => by
    rw [List.getD_cons_zero] at hlt
    rw [List.getD_cons_zero, List.set_cons_zero, capDown_cons, capDown_cons]
    omega
  | a :: t, i + 1, h, hlt => by
    rw [List.getD_cons_succ] at hlt
    have ht := capDown_set t i (by simpa using h) hlt
    rw [List.getD_cons_succ, List.set_cons_succ, capDown_cons, capDown_cons]
    omega

theorem capUp_pos : ∀ (l : List Nat), 0 < capUp l →
    ∃ p, p < l.length ∧ l.getD p 0 < 6
  | [], h => by simp [capUp] at h
  | a :: t, h => by
    by_cases ha : a < 6
    · exact ⟨0, by simp, by rwa [List.getD_cons_zero]⟩
    · have ht : 0 < capUp t := by
        rw [capUp_cons] at h
        omega
      obtain ⟨p, hp, hlt⟩ := capUp_pos t ht
      exact ⟨p + 1, by simpa using hp, by rwa [List.getD_cons_succ]⟩

theorem capDown_pos : ∀ (l : List Nat), 0 < capDown l →
    ∃ p, p < l.length ∧ 2 < l.getD p 0
  | [], h => by simp [capDown] at h
  | a :: t, h => by
    by_cases ha : 2 < a
    · exact ⟨0, by simp, by rwa [List.getD_cons_zero]⟩
    · have ht : 0 < capDown t := by
        rw [capDown_cons] at h
        omega
      obtain ⟨p, hp, hlt⟩ := capDown_pos t ht
      exact ⟨p + 1, by simpa using hp, by rwa [List.getD_cons_succ]⟩

theorem capUp_add_sum : ∀ (l : List Nat), (∀ c ∈ l, c ≤ 6) →
    capUp l + l.sum = 6 * l.length
  | [], _ => by simp [capUp]
  | a :: t, h => by
    have ht := capUp_add_sum t (fun c hc => h c (List.mem_cons_of_mem a hc))
    have ha := h a (List.mem_cons_self a t)
    rw [capUp_cons, List.sum_cons, List.length_cons]
    omega

theorem capDown_add_sum : ∀ (l : List Nat), (∀ c ∈ l, 2 ≤ c) →
    capDown l + 2 * l.length = l.sum
  | [], _ => by simp [capDown]
  | a :: t, h => by
    have ht := capDown_add_sum t (fun c hc => h c (List.mem_cons_of_mem a hc))
    have ha := h a (List.mem_cons_self a t)
    rw [capDown_cons, List.sum_cons, List.length_cons]
    omega

/-- Cyclic reachability: from any start `i < n`, every position `p < n` is at
distance `j < n` along the scan `i, (i+1) % n, …`. -/
theorem cyclic_reach (n p i : Nat) (hp : p < n) (hi : i < n) :
    ∃ j, j < n ∧ (i + j) % n = p := by
  have hn : 0 < n := Nat.lt_of_le_of_lt (Nat.zero_le p) hp
  refine ⟨(p + n - i) % n, Nat.mod_lt _ hn, ?_⟩
  have h1 : (i + (p + n - i) % n) % n = (i + (p + n - i)) % n :=
    Nat.add_mod_mod i (p + n - i) n
  have h2 : i + (p + n - i) = p + n := by omega
  rw [h1, h2, Nat.add_mod_right, Nat.mod_eq_of_lt hp]

/-- Loop invariant for the increment correction loop: if the remaining `diff`
does not exceed the upward slack and enough fuel remains (witnessed by a free
slot within cyclic reach), the loop terminates with the sum raised by exactly
`diff` and every entry still in `[2, 6]`. -/
theorem incLoop_ok : ∀ (fuel : Nat) (l : List Nat) (i diff : Nat),
    0 < l.length → i < l.length →
    (∀ c ∈ l, 2 ≤ c ∧ c ≤ 6) →
    diff ≤ capUp l →
    (diff = 0 → 1 ≤ fuel) →
    (∀ d, diff = d + 1 → ∃ j, j < l.length ∧
      l.getD ((i + j) % l.length) 0 < 6 ∧ d * l.length + j + 2 ≤ fuel) →
    ∃ out, incLoop l i diff fuel = some out ∧ out.length = l.length ∧
      out.sum = l.sum + diff ∧ ∀ c ∈ out, 2 ≤ c ∧ c ≤ 6 := by
  intro fuel
  induction fuel with
  | zero =>
    intro l i diff hn hi hmem hcap h0 hwit
    rcases diff with _ | d
    · exact absurd (h0 rfl) (by omega)
    · obtain ⟨j, _, _, hf⟩ := hwit d rfl
      exact absurd hf (by omega)
  | succ f ih =>
    intro l i diff hn hi hmem hcap h0 hwit
    rcases diff with _ | d
    · refine ⟨l, ?_, rfl, by omega, hmem⟩
      simp [incLoop]
    · obtain ⟨j, hj, hfree, hf⟩ := hwit d rfl
      by_cases hg : l.getD i 0 < 6
      · -- increment step: the scanned slot is below 6
        have hstep : incLoop l i (d + 1) (f + 1)
            = incLoop (l.set i (l.getD i 0 + 1)) ((i + 1) % l.length) d f := by
          simp only [incLoop]
          rw [if_neg (Nat.succ_ne_zero d), if_pos hg]
          simp only [Nat.add_sub_cancel]
        have hlen' : (l.set i (l.getD i 0 + 1)).length = l.length := by simp
        have hmem' : ∀ c ∈ l.set i (l.getD i 0 + 1), 2 ≤ c ∧ c ≤ 6 := by
          intro c hc
          rcases List.mem_or_eq_of_mem_set hc with hcl | hce
          · exact hmem c hcl
          · have hb := hmem _ (getD_mem l i hi)
            omega
        have hcs := capUp_set l i hi hg
        have hsum := sum_set_add_one l i hi
        have hi' : (i + 1) % l.length < l.length := Nat.mod_lt _ hn
        have h0' : d = 0 → 1 ≤ f := by
          intro hd
          subst hd
          simp only [Nat.zero_mul] at hf
          omega
        have hwit' : ∀ d', d = d' + 1 → ∃ j',
            j' < (l.set i (l.getD i 0 + 1)).length ∧
            (l.set i (l.getD i 0 + 1)).getD
              (((i + 1) % l.length + j') % (l.set i (l.getD i 0 + 1)).length) 0 < 6 ∧
            d' * (l.set i (l.getD i 0 + 1)).length + j' + 2 ≤ f := by
          intro d' hd
          subst hd
          have hcpos : 0 < capUp (l.set i (l.getD i 0 + 1)) := by omega
          obtain ⟨p, hp, hpfree⟩ := capUp_pos _ hcpos
          rw [hlen'] at hp
          obtain ⟨j', hj', hreach⟩ := cyclic_reach l.length p ((i + 1) % l.length) hp hi'
          refine ⟨j', by rw [hlen']; exact hj', ?_, ?_⟩
          · rw [hlen', hreach]
            exact hpfree
          · rw [hlen']
            rw [Nat.add_mul, Nat.one_mul] at hf
            omega
        obtain ⟨out, hout, holen, hosum, homem⟩ :=
          ih (l.set i (l.getD i 0 + 1)) ((i + 1) % l.length) d
            (by rw [hlen']; exact hn) (by rw [hlen']; exact hi') hmem' (by omega) h0' hwit'
        refine ⟨out, ?_, ?_, ?_, homem⟩
        · rw [hstep]
          exact hout
        · rw [holen, hlen']
        · rw [hosum, hsum]
          omega
      · -- skip step: the scanned slot is already at 6
        have hstep : incLoop l i (d + 1) (f + 1)
            = incLoop l ((i + 1) % l.length) (d + 1) f := by
          simp only [incLoop]
          rw [if_neg (Nat.succ_ne_zero d), if_neg hg]
        have hi' : (i + 1) % l.length < l.length := Nat.mod_lt _ hn
        have hj0 : j ≠ 0 := by
          intro h
          subst h
          rw [Nat.add_zero, Nat.mod_eq_of_lt hi] at hfree
          exact hg hfree
        obtain ⟨j'', rfl⟩ : ∃ j'', j = j'' + 1 := ⟨j - 1, by omega⟩
        have hreach : ((i + 1) % l.length + j'') % l.length = (i + (j'' + 1)) % l.length := by
          rw [Nat.mod_add_mod]
          congr 1
          omega
        have hwit' : ∀ d0, d + 1 = d0 + 1 → ∃ j2, j2 < l.length ∧
            l.getD (((i + 1) % l.length + j2) % l.length) 0 < 6 ∧
            d0 * l.length + j2 + 2 ≤ f := by
          intro d0 hd
          have hdd : d0 = d := by omega
          subst hdd
          refine ⟨j'', by omega, ?_, by omega⟩
          rw [hreach]
          exact hfree
        obtain ⟨out, hout, holen, hosum, homem⟩ :=
          ih l ((i + 1) % l.length) (d + 1) hn hi' hmem hcap
            (fun h => absurd h (Nat.succ_ne_zero d)) hwit'
        exact ⟨out, by rw [hstep]; exact hout, holen, hosum, homem⟩

/-- Loop invariant for the decrement correction loop, mirror image of
`incLoop_ok`: the sum drops by exactly `need` and every entry stays in
`[2, 6]`. -/
theorem decLoop_ok : ∀ (fuel : Nat) (l : List Nat) (i need : Nat),
    0 < l.length → i < l.length →
    (∀ c ∈ l, 2 ≤ c ∧ c ≤ 6) →
    need ≤ capDown l →
    (need = 0 → 1 ≤ fuel) →
    (∀ d, need = d + 1 → ∃ j, j < l.length ∧
      2 < l.getD ((i + j) % l.length) 0 ∧ d * l.length + j + 2 ≤ fuel) →
    ∃ out, decLoop l i need fuel = some out ∧ out.length = l.length ∧
      out.sum + need = l.sum ∧ ∀ c ∈ out, 2 ≤ c ∧ c ≤ 6 := by
  intro fuel
  induction fuel with
  | zero =>
    intro l i need hn hi hmem hcap h0 hwit
    rcases need with _ | d
    · exact absurd (h0 rfl) (by omega)
    · obtain ⟨j, _, _, hf⟩ := hwit d rfl
      exact absurd hf (by omega)
  | succ f ih =>
    intro l i need hn hi hmem hcap h0 hwit
    rcases need with _ | d
    · refine ⟨l, ?_, rfl, by omega, hmem⟩
      simp [decLoop]
    · obtain ⟨j, hj, hfree, hf⟩ := hwit d rfl
      by_cases hg : 2 < l.getD i 0
      · -- decrement step: the scanned slot is above 2
        have hstep : decLoop l i (d + 1) (f + 1)
            = decLoop (l.set i (l.getD i 0 - 1)) ((i + 1) % l.length) d f := by
          simp only [decLoop]
          rw [if_neg (Nat.succ_ne_zero d), if_pos hg]
          simp only [Nat.add_sub_cancel]
        have hlen' : (l.set i (l.getD i 0 - 1)).length = l.length := by simp
        have hmem' : ∀ c ∈ l.set i (l.getD i 0 - 1), 2 ≤ c ∧ c ≤ 6 := by
          intro c hc
          rcases List.mem_or_eq_of_mem_set hc with hcl | hce
          · exact hmem c hcl
          · have hb := hmem _ (getD_mem l i hi)
            omega
        have hcs := capDown_set l i hi hg
        have hsum := sum_set_sub_one l i hi (by omega)
        have hi' : (i + 1) % l.length < l.length := Nat.mod_lt _ hn
        have h0' : d = 0 → 1 ≤ f := by
          intro hd
          subst hd
          simp only [Nat.zero_mul] at hf
          omega
        have hwit' : ∀ d', d = d' + 1 → ∃ j',
            j' < (l.set i (l.getD i 0 - 1)).length ∧
            2 < (l.set i (l.getD i 0 - 1)).getD
              (((i + 1) % l.length + j') % (l.set i (l.getD i 0 - 1)).length) 0 ∧
            d' * (l.set i (l.getD i 0 - 1)).length + j' + 2 ≤ f := by
          intro d' hd
          subst hd
          have hcpos : 0 < capDown (l.set i (l.getD i 0 - 1)) := by omega
          obtain ⟨p, hp, hpfree⟩ := capDown_pos _ hcpos
          rw [hlen'] at hp
          obtain ⟨j', hj', hreach⟩ := cyclic_reach l.length p ((i + 1) % l.length) hp hi'
          refine ⟨j', by rw [hlen']; exact hj', ?_, ?_⟩
          · rw [hlen', hreach]
            exact hpfree
          · rw [hlen']
            rw [Nat.add_mul, Nat.one_mul] at hf
            omega
        obtain ⟨out, hout, holen, hosum, homem⟩ :=
          ih (l.set i (l.getD i 0 - 1)) ((i + 1) % l.length) d
            (by rw [hlen']; exact hn) (by rw [hlen']; exact hi') hmem' (by omega) h0' hwit'
        refine ⟨out, ?_, ?_, ?_, homem⟩
        · rw [hstep]
          exact hout
        · rw [holen, hlen']
        · omega
      · -- skip step: the scanned slot is already at the lower bound
        have hstep : decLoop l i (d + 1) (f + 1)
            = decLoop l ((i + 1) % l.length) (d + 1) f := by
          simp only [decLoop]
          rw [if_neg (Nat.succ_ne_zero d), if_neg hg]
        have hi' : (i + 1) % l.length < l.length := Nat.mod_lt _ hn
        have hj0 : j ≠ 0 := by
          intro h
          subst h
          rw [Nat.add_zero, Nat.mod_eq_of_lt hi] at hfree
          exact hg hfree
        obtain ⟨j'', rfl⟩ : ∃ j'', j = j'' + 1 := ⟨j - 1, by omega⟩
        have hreach : ((i + 1) % l.length + j'') % l.length = (i + (j'' + 1)) % l.length := by
          rw [Nat.mod_add_mod]
          congr 1
          omega
        have hwit' : ∀ d0, d + 1 = d0 + 1 → ∃ j2, j2 < l.length ∧
            2 < l.getD (((i + 1) % l.length + j2) % l.length) 0 ∧
            d0 * l.length + j2 + 2 ≤ f := by
          intro d0 hd
          have hdd : d0 = d := by omega
          subst hdd
          refine ⟨j'', by omega, ?_, by omega⟩
          rw [hreach]
          exact hfree
        obtain ⟨out, hout, holen, hosum, homem⟩ :=
          ih l ((i + 1) % l.length) (d + 1) hn hi' hmem hcap
            (fun h => absurd h (Nat.succ_ne_zero d)) hwit'
        exact ⟨out, by rw [hstep]; exact hout, holen, hosum, homem⟩

/-- The increment loop with the fuel used by `adjustPerTrip` always succeeds
when `diff` is within the upward slack. -/
theorem incLoop_spec (l : List Nat) (diff : Nat) (hn : 0 < l.length)
    (hmem : ∀ c ∈ l, 2 ≤ c ∧ c ≤ 6) (hcap : diff ≤ capUp l) :
    ∃ out, incLoop l 0 diff (diff * l.length + l.length) = some out ∧
      out.length = l.length ∧ out.sum = l.sum + diff ∧
      ∀ c ∈ out, 2 ≤ c ∧ c ≤ 6 := by
  apply incLoop_ok _ l 0 diff hn hn hmem hcap
  · intro _
    omega
  · intro d hd
    subst hd
    have hcpos : 0 < capUp l := by omega
    obtain ⟨p, hp, hpfree⟩ := capUp_pos l hcpos
    refine ⟨p, hp, ?_, ?_⟩
    · rw [Nat.zero_add, Nat.mod_eq_of_lt hp]
      exact hpfree
    · rw [Nat.add_mul, Nat.one_mul]
      omega

/-- The decrement loop with the fuel used by `adjustPerTrip` always succeeds
when `need` is within the downward slack. -/
theorem decLoop_spec (l : List Nat) (need : Nat) (hn : 0 < l.length)
    (hmem : ∀ c ∈ l, 2 ≤ c ∧ c ≤ 6) (hcap : need ≤ capDown l) :
    ∃ out, decLoop l 0 need (need * l.length + l.length) = some out ∧
      out.length = l.length ∧ out.sum + need = l.sum ∧
      ∀ c ∈ out, 2 ≤ c ∧ c ≤ 6 := by
  apply decLoop_ok _ l 0 need hn hn hmem hcap
  · intro _
    omega
  · intro d hd
    subst hd
    have hcpos : 0 < capDown l := by omega
    obtain ⟨p, hp, hpfree⟩ := capDown_pos l hcpos
    refine ⟨p, hp, ?_, ?_⟩
    · rw [Nat.zero_add, Nat.mod_eq_of_lt hp]
      exact hpfree
    · rw [Nat.add_mul, Nat.one_mul]
      omega

/-- C1: for every feasible input (`N` trips, per-trip bounds `[2, 6]`, target
`T` with `2·N ≤ T ≤ 6·N`) and every initial categorical draw (each count in
`{2,…,6}`), the per-trip adjustment of `generate_deliveries` succeeds and
returns counts that sum exactly to `T`, each within `[2, 6]`. -/
theorem cardinality_allocation_correct (perTrip : List Nat) (target : Nat)
    (hn : 0 < perTrip.length)
    (hdraw : ∀ c ∈ perTrip, 2 ≤ c ∧ c ≤ 6)
    (hlo : 2 * perTrip.length ≤ target) (hhi : target ≤ 6 * perTrip.length) :
    ∃ out, adjustPerTrip perTrip target = some out ∧
      out.length = perTrip.length ∧ out.sum = target ∧
      ∀ c ∈ out, 2 ≤ c ∧ c ≤ 6 := by
  have hub := capUp_add_sum perTrip (fun c hc => (hdraw c hc).2)
  have hlb := capDown_add_sum perTrip (fun c hc => (hdraw c hc).1)
  simp only [adjustPerTrip]
  by_cases h1 : perTrip.sum < target
  · rw [if_pos h1]
    have hcapge : target - perTrip.sum ≤ capUp perTrip := by omega
    rw [if_neg (by omega)]
    obtain ⟨out, hout, holen, hosum, homem⟩ :=
      incLoop_spec perTrip (target - perTrip.sum) hn hdraw hcapge
    exact ⟨out, hout, holen, by omega, homem⟩
  · rw [if_neg h1]
    by_cases h2 : target < perTrip.sum
    · rw [if_pos h2]
      have hcapge : perTrip.sum - target ≤ capDown perTrip := by omega
      rw [if_neg (by omega)]
      obtain ⟨out, hout, holen, hosum, homem⟩ :=
        decLoop_spec perTrip (perTrip.sum - target) hn hdraw hcapge
      exact ⟨out, hout, holen, by omega, homem⟩
    · rw [if_neg h2]
      exact ⟨perTrip, rfl, rfl, by omega, hdraw⟩

/-- Witness for C1 at a concrete feasible input: three trips drawn `[2,3,4]`,
target 10. -/
theorem cardinality_allocation_correct_witness :
    0 < ([2, 3, 4] : List Nat).length ∧
    (∀ c ∈ ([2, 3, 4] : List Nat), 2 ≤ c ∧ c ≤ 6) ∧
    2 * ([2, 3, 4] : List Nat).length ≤ 10 ∧
    10 ≤ 6 * ([2, 3, 4] : List Nat).length ∧
    (∃ out, adjustPerTrip [2, 3, 4] 10 = some out ∧
      out.length = ([2, 3, 4] : List Nat).length ∧ out.sum = 10 ∧
      ∀ c ∈ out, 2 ≤ c ∧ c ≤ 6) :=
  ⟨by decide, by decide, by decide, by decide,
    cardinality_allocation_correct [2, 3, 4] 10 (by decide) (by decide)
      (by decide) (by decide)⟩

/-- C2: for every input that violates the feasibility bound
(`T < 2·N` or `T > 6·N`), the allocator fails: the slack check, which runs
before the correction loop, reports the infeasible condition (`none`, the
source's `RuntimeError`) and no count vector is emitted. -/
theorem cardinality_allocation_infeasible (perTrip : List Nat) (target : Nat)
    (hdraw : ∀ c ∈ perTrip, 2 ≤ c ∧ c ≤ 6)
    (hbad : target < 2 * perTrip.length ∨ 6 * perTrip.length < target) :
    adjustPerTrip perTrip target = none := by
  have hub := capUp_add_sum perTrip (fun c hc => (hdraw c hc).2)
  have hlb := capDown_add_sum perTrip (fun c hc => (hdraw c hc).1)
  simp only [adjustPerTrip]
  rcases hbad with hlow | hhigh
  · rw [if_neg (by omega), if_pos (by omega), if_pos (by omega)]
  · rw [if_pos (by omega), if_pos (by omega)]

/-- Witness for C2 at a concrete infeasible input: two trips drawn `[2,2]`,
target 20 (maximum possible is 12). -/
theorem cardinality_allocation_infeasible_witness :
    (∀ c ∈ ([2, 2] : List Nat), 2 ≤ c ∧ c ≤ 6) ∧
    (20 < 2 * ([2, 2] : List Nat).length ∨ 6 * ([2, 2] : List Nat).length < 20) ∧
    adjustPerTrip [2, 2] 20 = none :=
  ⟨by decide, by decide,
    cardinality_allocation_infeasible [2, 2] 20 (by decide) (by decide)⟩

/-! ### Weight distribution (`_distribute_weight_lognormal`)

Python floats are binary rationals, so the float arithmetic is modelled
exactly over `ℚ`.  The lognormal draws themselves are the `raw` argument:
every claim is quantified over all possible draws. -/

/-- `np.clip(·, 0.5, None)` applied to one draw. -/
def clipMin (x : ℚ) : ℚ := max x 0.5

/-- `_distribute_weight_lognormal`: clip each lognormal draw to at least
`0.5`, then rescale the clipped vector proportionally so that it sums to
`total_weight * 0.95` (`scaled = raw / raw.sum() * (total_weight * 0.95)`). -/
def distributeWeightLognormal (raw : List ℚ) (totalWeight : ℚ) : List ℚ :=
  let clipped := raw.map clipMin
  clipped.map (fun x => x / clipped.sum * (totalWeight * 0.95))

theorem half_le_clipMin (x : ℚ) : (0.5 : ℚ) ≤ clipMin x := le_max_right x 0.5

theorem clipSum_pos : ∀ (raw : List ℚ), raw ≠ [] → 0 < (raw.map clipMin).sum
  | [], h => absurd rfl h
  | a :: t, _ => by
    rw [List.map_cons, List.sum_cons]
    have h1 : (0 : ℚ) < clipMin a := lt_of_lt_of_le (by norm_num) (half_le_clipMin a)
    have h2 : (0 : ℚ) ≤ (t.map clipMin).sum := by
      apply List.sum_nonneg
      intro x hx
      obtain ⟨y, _, rfl⟩ := List.mem_map.mp hx
      exact le_trans (by norm_num) (half_le_clipMin y)
    linarith

theorem sum_map_div_mul (l : List ℚ) (s c : ℚ) :
    (l.map (fun x => x / s * c)).sum = l.sum / s * c := by
  induction l with
  | nil => simp
  | cons a t ih =>
    rw [List.map_cons, List.sum_cons, List.sum_cons, ih]
    ring

/-- C3: for every positive total quantity `Q`, and every nonempty vector of
lognormal draws (count `n ≥ 1`), `_distribute_weight_lognormal` returns
exactly `n` values, all strictly positive, whose sum equals `0.95 × Q`. -/
theorem weight_distribution_sum (raw : List ℚ) (totalWeight : ℚ)
    (hraw : raw ≠ []) (hq : 0 < totalWeight) :
    (distributeWeightLognormal raw totalWeight).length = raw.length ∧
    (∀ y ∈ distributeWeightLognormal raw totalWeight, 0 < y) ∧
    (distributeWeightLognormal raw totalWeight).sum = 0.95 * totalWeight := by
  have hS : 0 < (raw.map clipMin).sum := clipSum_pos raw hraw
  refine ⟨by simp [distributeWeightLognormal], ?_, ?_⟩
  · intro y hy
    simp only [distributeWeightLognormal] at hy
    obtain ⟨x, hx, rfl⟩ := List.mem_map.mp hy
    obtain ⟨x0, _, rfl⟩ := List.mem_map.mp hx
    have hx5 := half_le_clipMin x0
    have hxpos : 0 < clipMin x0 := by linarith
    exact mul_pos (div_pos hxpos hS) (mul_pos hq (by norm_num))
  · simp only [distributeWeightLognormal]
    rw [sum_map_div_mul, div_self (ne_of_gt hS), one_mul]
    ring

/-- Witness for C3: a single draw `[1]` with `Q = 1`. -/
theorem weight_distribution_sum_witness :
    ([1] : List ℚ) ≠ [] ∧ (0 : ℚ) < 1 ∧
    ((distributeWeightLognormal [1] 1).length = ([1] : List ℚ).length ∧
     (∀ y ∈ distributeWeightLognormal [1] 1, 0 < y) ∧
     (distributeWeightLognormal [1] 1).sum = 0.95 * 1) :=
  ⟨by simp, by norm_num, weight_distribution_sum [1] 1 (by simp) (by norm_num)⟩

/-- C6 counterexample: with draws `[1, 1]` and total `Q = 1` (so `Q > 0`,
`n = 2 ≥ 1`) the distributor returns `[0.475, 0.475]`: a value below `0.5`,
so the pre-scaling clamp floor is not preserved by the rescaling. -/
theorem package_weight_floor_counterexample :
    ∃ y ∈ distributeWeightLognormal [1, 1] 1, y < 0.5 := by
  have hmax : clipMin 1 = 1 := by
    simp only [clipMin]
    exact max_eq_left (by norm_num)
  have hval : distributeWeightLognormal [1, 1] 1 = [0.475, 0.475] := by
    simp only [distributeWeightLognormal, List.map_cons, List.map_nil, hmax,
      List.sum_cons, List.sum_nil]
    norm_num
  rw [hval]
  exact ⟨0.475, by simp, by norm_num⟩

/-- C6 amended: each returned value is at least the `0.5` floor multiplied by
the proportional rescale factor `0.95·Q / sum(clipped draws)` (hence strictly
positive); the absolute `0.5` floor holds before rescaling but is not
preserved after it. -/
theorem package_weight_scaled_floor (raw : List ℚ) (totalWeight : ℚ)
    (hraw : raw ≠ []) (hq : 0 < totalWeight) :
    ∀ y ∈ distributeWeightLognormal raw totalWeight,
      0.5 * (totalWeight * 0.95 / (raw.map clipMin).sum) ≤ y := by
  intro y hy
  have hS : 0 < (raw.map clipMin).sum := clipSum_pos raw hraw
  simp only [distributeWeightLognormal] at hy
  obtain ⟨x, hx, rfl⟩ := List.mem_map.mp hy
  obtain ⟨x0, _, rfl⟩ := List.mem_map.mp hx
  have hx5 := half_le_clipMin x0
  have hc : 0 < totalWeight * 0.95 / (raw.map clipMin).sum :=
    div_pos (mul_pos hq (by norm_num)) hS
  calc 0.5 * (totalWeight * 0.95 / (raw.map clipMin).sum)
      ≤ clipMin x0 * (totalWeight * 0.95 / (raw.map clipMin).sum) :=
        mul_le_mul_of_nonneg_right hx5 (le_of_lt hc)
    _ = clipMin x0 / (raw.map clipMin).sum * (totalWeight * 0.95) := by ring

/-- Witness for the amended C6: a single draw `[1]` with `Q = 1`. -/
theorem package_weight_scaled_floor_witness :
    ([1] : List ℚ) ≠ [] ∧ (0 : ℚ) < 1 ∧
    (∀ y ∈ distributeWeightLognormal [1] 1,
      0.5 * ((1 : ℚ) * 0.95 / (([1] : List ℚ).map clipMin).sum) ≤ y) :=
  ⟨by simp, by norm_num, package_weight_scaled_floor [1] 1 (by simp) (by norm_num)⟩

/-! ### Trip durations and delivery scheduling
(`generate_routes`, `generate_trips`, `generate_deliveries`)

Times and durations are in hours (`ℚ`). -/

/-- `CITIES`. -/
def CITIES : List String :=
  ["Bogotá", "Medellín", "Villavicencio", "Barranquilla", "Bucaramanga"]

/-- The `DISTANCES` dict (km).  The values are Python ints; `_get_distance`
returns them through `float(...)`, modelled by the cast in `getDistance`. -/
def DISTANCES : List ((String × String) × ℕ) :=
  [(("Bogotá", "Medellín"), 443),
   (("Bogotá", "Villavicencio"), 123),
   (("Bogotá", "Barranquilla"), 1001),
   (("Bogotá", "Bucaramanga"), 409),
   (("Medellín", "Bucaramanga"), 388),
   (("Medellín", "Barranquilla"), 703),
   (("Medellín", "Villavicencio"), 518),
   (("Villavicencio", "Barranquilla"), 1116),
   (("Bucaramanga", "Barranquilla"), 584),
   (("Villavicencio", "Bucaramanga"), 518)]

/-- Python's `<` on strings: lexicographic comparison of code points. -/
def strLtB : List Char → List Char → Bool
  | [], [] => false
  | [], _ :: _ => true
  | _ :: _, [] => false
  | a :: as, b :: bs =>
    if a.toNat < b.toNat then true
    else if b.toNat < a.toNat then false
    else strLtB as bs

/-- `tuple(sorted((a, b)))` for two strings. -/
def sortedPair (a b : String) : String × String :=
  if strLtB b.data a.data then (b, a) else (a, b)

/-- `_get_distance`: `0.0` for equal cities, else
`float(DISTANCES.get(tuple(sorted((a, b))), 500.0))`.  Only four of the ten
dict keys are written in sorted order; the lookup misses the other six pairs
and falls back to the `500.0` default for them. -/
def getDistance (a b : String) : ℚ :=
  if a = b then 0 else ((DISTANCES.lookup (sortedPair a b)).getD 500 : ℕ)

/-- The route distances `generate_routes` can produce: a simple route between
two distinct cities with uniform noise in `[0.95, 1.05]`, or a two- or
three-leg composite over pairwise-distinct cities with noise in
`[0.97, 1.03]`, every leg measured by `_get_distance`. -/
inductive RouteKm : ℚ → Prop
  | simple (o d : String) (u : ℚ) : o ∈ CITIES → d ∈ CITIES → o ≠ d →
      0.95 ≤ u → u ≤ 1.05 → RouteKm (getDistance o d * u)
  | comp2 (a b c : String) (u : ℚ) : a ∈ CITIES → b ∈ CITIES → c ∈ CITIES →
      b ≠ a → c ≠ a → c ≠ b → 0.97 ≤ u → u ≤ 1.03 →
      RouteKm ((getDistance a b + getDistance b c) * u)
  | comp3 (a b c d : String) (u : ℚ) : a ∈ CITIES → b ∈ CITIES → c ∈ CITIES →
      d ∈ CITIES → b ≠ a → c ≠ a → c ≠ b → d ≠ a → d ≠ b → d ≠ c →
      0.97 ≤ u → u ≤ 1.03 →
      RouteKm ((getDistance a b + getDistance b c + getDistance c d) * u)

/-- For distinct cities `_get_distance` returns at least 123 km: the four
sorted-order keys hit table values 123, 409, 443, 518, and every other pair
takes the 500 km default. -/
theorem getDistance_ge (a b : String) (ha : a ∈ CITIES) (hb : b ∈ CITIES)
    (hab : a ≠ b) : 123 ≤ getDistance a b := by
  have h : 123 ≤ (DISTANCES.lookup (sortedPair a b)).getD 500 := by
    fin_cases ha <;> fin_cases hb <;> first | (exact absurd rfl hab) | decide
  unfold getDistance
  rw [if_neg hab]
  exact_mod_cast h

theorem routeKm_ge (km : ℚ) (h : RouteKm km) : 116 ≤ km := by
  cases h with
  | simple o d u ho hd hne hu1 hu2 =>
    have h1 := getDistance_ge o d ho hd hne
    nlinarith
  | comp2 a b c u ha hb hc hba hca hcb hu1 hu2 =>
    have g1 := getDistance_ge a b ha hb (Ne.symm hba)
    have g2 := getDistance_ge b c hb hc (Ne.symm hcb)
    nlinarith
  | comp3 a b c d u ha hb hc hd hba hca hcb hda hdb hdc hu1 hu2 =>
    have g1 := getDistance_ge a b ha hb (Ne.symm hba)
    have g2 := getDistance_ge b c hb hc (Ne.symm hcb)
    have g3 := getDistance_ge c d hc hd (Ne.symm hdc)
    nlinarith

/-- `base_dur = (distance / 70.0) + 1.0` in `generate_trips`. -/
def baseDur (km : ℚ) : ℚ := km / 70 + 1

/-- `actual_dur = max(est_dur, base_dur) * realism` in `generate_trips`:
the trip's true duration, `arrival - departure`, in hours. -/
def actualDur (estDur km realism : ℚ) : ℚ := max estDur (baseDur km) * realism

/-- `total_hours = max(duration, 1.0)` in `generate_deliveries`. -/
def totalHours (d : ℚ) : ℚ := max d 1

/-- `gap = total_hours / n` in `generate_deliveries`. -/
def deliveryGap (d : ℚ) (n : ℕ) : ℚ := totalHours d / n

/-- `scheduled = departure + timedelta(hours=gap * (i + 0.5))`. -/
def scheduledTime (departure d : ℚ) (n i : ℕ) : ℚ :=
  departure + deliveryGap d n * (i + 0.5)

/-- C5: for every trip with a known arrival — its duration `d` being
`max(est_dur, km/70 + 1) * realism` for a generated route distance `km` and
`realism ∈ [0.85, 1.15]` — and each of its `n` deliveries (index `i < n`),
the scheduled timestamp `departure + gap·(i + 0.5)` falls within
`[departure, departure + d)`.  (Generated durations always exceed 1 hour, so
the `max(·, 1.0)` floor is inactive and `gap = d/n` as the claim states.) -/
theorem delivery_scheduled_within_trip_window
    (km estDur realism departure : ℚ) (n i : ℕ)
    (hkm : RouteKm km) (hr1 : 0.85 ≤ realism) (hr2 : realism ≤ 1.15)
    (hin : i < n) :
    departure ≤ scheduledTime departure (actualDur estDur km realism) n i ∧
    scheduledTime departure (actualDur estDur km realism) n i
      < departure + actualDur estDur km realism := by
  have hkm116 := routeKm_ge km hkm
  have hbase : (2 : ℚ) ≤ baseDur km := by
    unfold baseDur
    linarith
  have hn : 0 < n := lt_of_le_of_lt (Nat.zero_le i) hin
  have hnq : (0 : ℚ) < n := by exact_mod_cast hn
  have hiq : (i : ℚ) + 1 ≤ (n : ℚ) := by exact_mod_cast hin
  set d := actualDur estDur km realism with hd
  have hd17 : (17 / 10 : ℚ) ≤ d := by
    rw [hd]
    unfold actualDur
    have h1 : baseDur km ≤ max estDur (baseDur km) := le_max_right _ _
    have h2 : (2 : ℚ) * 0.85 ≤ max estDur (baseDur km) * realism :=
      mul_le_mul (le_trans hbase h1) hr1 (by norm_num)
        (le_trans (by norm_num) (le_trans hbase h1))
    linarith
  have hd1 : (1 : ℚ) ≤ d := by linarith
  have hdpos : (0 : ℚ) < d := by linarith
  unfold scheduledTime deliveryGap
  rw [show totalHours d = d from max_eq_left hd1]
  constructor
  · have hpos : 0 < d / n * ((i : ℚ) + 0.5) := by
      apply mul_pos (div_pos hdpos hnq)
      have h0 : (0 : ℚ) ≤ i := Nat.cast_nonneg i
      linarith
    linarith
  · have hlt : d / n * ((i : ℚ) + 0.5) < d := by
      rw [div_mul_eq_mul_div, div_lt_iff₀ hnq]
      have hstep : (i : ℚ) + 0.5 < n := by linarith
      exact mul_lt_mul_of_pos_left hstep hdpos
    linarith

/-- Witness for C5: the simple Bogotá–Medellín route (noise 1), `est_dur` 5,
`realism = 1`, departure 0, delivery 2 of 4. -/
theorem delivery_scheduled_within_trip_window_witness :
    RouteKm (getDistance "Bogotá" "Medellín" * 1) ∧
    (0.85 : ℚ) ≤ 1 ∧ (1 : ℚ) ≤ 1.15 ∧ 2 < 4 ∧
    (0 ≤ scheduledTime 0 (actualDur 5 (getDistance "Bogotá" "Medellín" * 1) 1) 4 2 ∧
     scheduledTime 0 (actualDur 5 (getDistance "Bogotá" "Medellín" * 1) 1) 4 2
       < 0 + actualDur 5 (getDistance "Bogotá" "Medellín" * 1) 1) :=
  ⟨RouteKm.simple "Bogotá" "Medellín" 1 (by decide) (by decide) (by decide)
      (by norm_num) (by norm_num),
    by norm_num, by norm_num, by norm_num,
    delivery_scheduled_within_trip_window (getDistance "Bogotá" "Medellín" * 1)
      5 1 0 4 2
      (RouteKm.simple "Bogotá" "Medellín" 1 (by decide) (by decide) (by decide)
        (by norm_num) (by norm_num))
      (by norm_num) (by norm_num) (by norm_num)⟩

/-! ### Trip total weight vs vehicle capacity (`generate_trips`) -/

/-- Python's `round(x, 2)`, modelled as rounding `x` to the nearest multiple
of `1/100` with ties upward.  (Python rounds ties to even, which never
exceeds the ties-upward result, so the upper bound proved below covers it.) -/
def round2 (x : ℚ) : ℚ := (round (x * 100) : ℤ) / 100

/-- The stored trip weight: `round(float(capacity) * uniform(0.4, 0.9), 2)`. -/
def tripTotalWeight (capacity : ℕ) (u : ℚ) : ℚ := round2 (capacity * u)

/-- C7: for every generated trip — integer vehicle capacity, load factor `u`
drawn from `[0.4, 0.9]` — the stored total weight, rounded to 2 decimals,
is at most `0.9 ×` the vehicle capacity. -/
theorem trip_weight_within_capacity (capacity : ℕ) (u : ℚ)
    (h1 : 0.4 ≤ u) (h2 : u ≤ 0.9) :
    tripTotalWeight capacity u ≤ 0.9 * capacity := by
  unfold tripTotalWeight round2
  rw [round_eq]
  have hcap : (0 : ℚ) ≤ capacity := Nat.cast_nonneg _
  have hle : (capacity : ℚ) * u * 100 ≤ 90 * capacity := by nlinarith
  have hfloor : ⌊(capacity : ℚ) * u * 100 + 1 / 2⌋ ≤ (90 * capacity : ℤ) := by
    rw [Int.floor_le_iff]
    push_cast
    linarith
  rw [div_le_iff₀ (by norm_num : (0 : ℚ) < 100)]
  calc ((⌊(capacity : ℚ) * u * 100 + 1 / 2⌋ : ℤ) : ℚ)
      ≤ ((90 * capacity : ℤ) : ℚ) := by exact_mod_cast hfloor
    _ = 0.9 * capacity * 100 := by push_cast; ring

/-- Witness for C7: capacity 100, load factor 1/2. -/
theorem trip_weight_within_capacity_witness :
    (0.4 : ℚ) ≤ 1 / 2 ∧ (1 / 2 : ℚ) ≤ 0.9 ∧
    tripTotalWeight 100 (1 / 2) ≤ 0.9 * 100 :=
  ⟨by norm_num, by norm_num,
    trip_weight_within_capacity 100 (1 / 2) (by norm_num) (by norm_num)⟩

/-! ### Departure hour distribution
(`_hourly_distribution_full_24` and the hour clamp in `generate_trips`) -/

/-- The `weights` dict of `_hourly_distribution_full_24`; `weights.get(h, 1)`
defaults to 1 for a missing key. -/
def hourWeights (h : ℕ) : ℚ :=
  match h with
  | 6 => 4 | 7 => 6 | 8 => 10 | 9 => 10 | 10 => 8 | 11 => 6 | 12 => 5
  | 13 => 5 | 14 => 9 | 15 => 9 | 16 => 8 | 17 => 6 | 18 => 6 | 19 => 4
  | 20 => 2 | 21 => 2 | 22 => 1 | _ => 1

/-- `hours = list(range(6, 23))`. -/
def tripHours : List ℕ := List.range' 6 17

/-- `_hourly_distribution_full_24`: start from `np.zeros(24)` and write the
normalised weight `probs[i]` into position `h` for each `h` in `hours`;
position `h` therefore holds `weights[h] / total` when `h ∈ hours` and `0`
otherwise. -/
def hourlyDistributionFull24 : List ℚ :=
  (List.range 24).map (fun h =>
    if h ∈ tripHours then hourWeights h / (tripHours.map hourWeights).sum else 0)

/-- The clamp `if hour < 6: hour = 6` applied in `generate_trips` after the
categorical draw. -/
def clampHour (h : ℕ) : ℕ := if h < 6 then 6 else h

/-- C9: the 24-entry hour-probability vector assigns zero probability to
every hour outside `[6, 22]`; every hour drawn with positive probability
lies, after the `< 6` clamp, in `[6, 22]`; and the clamp raises any
degenerate draw below 6 up to 6. -/
theorem departure_hour_in_range (h : ℕ) (hh : h < 24) :
    ((h < 6 ∨ 22 < h) → hourlyDistributionFull24.getD h 0 = 0) ∧
    (hourlyDistributionFull24.getD h 0 ≠ 0 → 6 ≤ clampHour h ∧ clampHour h ≤ 22) ∧
    (h < 6 → clampHour h = 6) := by
  have hmem : h ∈ tripHours ↔ 6 ≤ h ∧ h < 23 := by
    rw [tripHours, List.mem_range'_1]
  have hget : hourlyDistributionFull24.getD h 0
      = if h ∈ tripHours then hourWeights h / (tripHours.map hourWeights).sum
        else 0 := by
    have hlen : h < hourlyDistributionFull24.length := by
      simp only [hourlyDistributionFull24, List.length_map, List.length_range]
      exact hh
    rw [List.getD_eq_getElem _ _ hlen]
    simp [hourlyDistributionFull24]
  refine ⟨?_, ?_, ?_⟩
  · intro hout
    rw [hget, if_neg]
    rw [hmem]
    omega
  · intro hne
    rw [hget] at hne
    by_cases hm : h ∈ tripHours
    · have hb := hmem.mp hm
      unfold clampHour
      rw [if_neg (by omega)]
      omega
    · rw [if_neg hm] at hne
      exact absurd rfl hne
  · intro h6
    unfold clampHour
    rw [if_pos h6]

/-- Witness for C9 at hour 23 (the only in-range hour above 22). -/
theorem departure_hour_in_range_witness :
    (23 < 24) ∧
    (((23 < 6 ∨ 22 < 23) → hourlyDistributionFull24.getD 23 0 = 0) ∧
     (hourlyDistributionFull24.getD 23 0 ≠ 0 → 6 ≤ clampHour 23 ∧ clampHour 23 ≤ 22) ∧
     (23 < 6 → clampHour 23 = 6)) :=
  ⟨by norm_num, departure_hour_in_range 23 (by norm_num)⟩

/-! ### Maintenance date interpolation (`generate_maintenance`)

Timestamps are minutes since an epoch (`ℤ`); a calendar date is the day index
`t / 1440`. `timedelta.days` is the floor of the interval in days, matching
`Int` floor division by 1440. -/

/-- `.date()` of a timestamp: its day index. -/
def dateOf (t : ℤ) : ℤ := t / 1440

/-- `(last_trip - first_trip).days`. -/
def daysBetween (first last : ℤ) : ℤ := (last - first) / 1440

/-- `span_days = max((last_trip - first_trip).days, 1)`. -/
def spanDays (first last : ℤ) : ℤ := max (daysBetween first last) 1

/-- `day_offset = int(frac * span_days)` with `frac = km_cursor / total_km`;
both factors are nonnegative there, so `int` truncation is the floor. -/
def dayOffset (kmCursor totalKm : ℚ) (span : ℤ) : ℤ :=
  ⌊kmCursor / totalKm * (span : ℚ)⌋

/-- `m_date = (first_trip + timedelta(days=day_offset)).date()`. -/
def maintenanceDate (first off : ℤ) : ℤ := dateOf (first + off * 1440)

/-- C8 counterexample: a vehicle whose trips span two hours of one day
(`first = 480`, `last = 600` minutes) with `total_km = 10000` and an emitted
event at `km_cursor = 10000` (threshold draw `10000 ∈ [9700, 10300]` and
`0 + 10000 ≤ total_km`, so the walker does emit it): `span_days` is floored
at 1, `frac = 1`, and the interpolated date lands one day *after*
`last_trip_date`. -/
theorem maintenance_date_span_counterexample :
    (0 : ℚ) < 10000 ∧ (0 : ℚ) + 10000 ≤ 10000 ∧
    (9700 : ℚ) ≤ 10000 ∧ (10000 : ℚ) ≤ 10300 ∧
    dateOf 600 < maintenanceDate 480 (dayOffset 10000 10000 (spanDays 480 600)) := by
  refine ⟨by norm_num, by norm_num, by norm_num, by norm_num, ?_⟩
  have hspan : spanDays 480 600 = 1 := by decide
  rw [hspan]
  have hoff : dayOffset 10000 10000 1 = 1 := by
    unfold dayOffset
    rw [show (10000 : ℚ) / 10000 * ((1 : ℤ) : ℚ) = 1 by norm_num]
    exact Int.floor_one
  rw [hoff]
  decide

/-- C8 amended: whenever the vehicle's observed trip span covers at least one
full day (`(last - first).days ≥ 1`, so the `max(·, 1)` floor on `span_days`
is inactive), every interpolated maintenance date falls within
`[first_trip_date, last_trip_date]`; for sub-day spans the date can exceed
`last_trip_date` by one day. -/
theorem maintenance_date_within_span (first last : ℤ) (kmCursor totalKm : ℚ)
    (hspan : 1 ≤ daysBetween first last)
    (htot : 0 < totalKm) (hc0 : 0 ≤ kmCursor) (hc1 : kmCursor ≤ totalKm) :
    dateOf first
      ≤ maintenanceDate first (dayOffset kmCursor totalKm (spanDays first last)) ∧
    maintenanceDate first (dayOffset kmCursor totalKm (spanDays first last))
      ≤ dateOf last := by
  have hsp : spanDays first last = daysBetween first last := max_eq_left hspan
  set D := daysBetween first last with hD
  have hD0 : (0 : ℤ) ≤ D := by omega
  have hDq : (0 : ℚ) ≤ (D : ℚ) := by exact_mod_cast hD0
  have hfrac0 : 0 ≤ kmCursor / totalKm := div_nonneg hc0 (le_of_lt htot)
  have hfrac1 : kmCursor / totalKm ≤ 1 := (div_le_one htot).mpr hc1
  have hoff0 : 0 ≤ dayOffset kmCursor totalKm (spanDays first last) := by
    rw [hsp]
    unfold dayOffset
    apply Int.le_floor.mpr
    push_cast
    exact mul_nonneg hfrac0 hDq
  have hoffD : dayOffset kmCursor totalKm (spanDays first last) ≤ D := by
    rw [hsp]
    unfold dayOffset
    have hmul : kmCursor / totalKm * (D : ℚ) ≤ (D : ℚ) := by nlinarith
    calc ⌊kmCursor / totalKm * (D : ℚ)⌋ ≤ ⌊(D : ℚ)⌋ := Int.floor_le_floor hmul
      _ = D := Int.floor_intCast D
  constructor
  · unfold maintenanceDate dateOf
    apply Int.ediv_le_ediv (by norm_num)
    omega
  · unfold maintenanceDate dateOf
    apply Int.ediv_le_ediv (by norm_num)
    have hD1440 : D * 1440 ≤ last - first := by
      rw [hD]
      unfold daysBetween
      exact Int.ediv_mul_le (last - first) (by norm_num)
    have hoff1440 : dayOffset kmCursor totalKm (spanDays first last) * 1440
        ≤ D * 1440 := by
      exact mul_le_mul_of_nonneg_right hoffD (by norm_num)
    omega

/-- Witness for the amended C8: trips spanning exactly one day, event halfway
through the distance. -/
theorem maintenance_date_within_span_witness :
    (1 : ℤ) ≤ daysBetween 0 1440 ∧ (0 : ℚ) < 10000 ∧ (0 : ℚ) ≤ 5000 ∧
    (5000 : ℚ) ≤ 10000 ∧
    (dateOf 0 ≤ maintenanceDate 0 (dayOffset 5000 10000 (spanDays 0 1440)) ∧
     maintenanceDate 0 (dayOffset 5000 10000 (spanDays 0 1440)) ≤ dateOf 1440) :=
  ⟨by decide, by norm_num, by norm_num, by norm_num,
    maintenance_date_within_span 0 1440 5000 10000 (by decide) (by norm_num)
      (by norm_num) (by norm_num)⟩

/-! ### Determinism of generation (`SEED`, `generate_trips`)

The module seeds `random`, `numpy` and `Faker` once with `SEED = 42`, so the
random streams are functions of the seed alone; they appear below as explicit
draw-stream arguments.  `generate_trips`, however, also reads the wall clock:
`start_date = datetime.now() - timedelta(days=730)`, and each departure is
`current_dt.replace(hour=hour, minute=minute)` with `current_dt` stepped by
`minutes_step` from `start_date`. -/

/-- `start_date = datetime.now() - timedelta(days=730)`, in minutes. -/
def tripStart (now : ℤ) : ℤ := now - 730 * 1440

/-- `dt.replace(hour=h, minute=m, second=0, microsecond=0)`: keep the day of
`dt`, set the time of day. -/
def replaceTime (dt : ℤ) (hour minute : ℕ) : ℤ :=
  1440 * (dt / 1440) + 60 * hour + minute

/-- The departure timestamps of `generate_trips`: trip `k` departs on the day
of `start_date + k · minutes_step`, at the drawn hour (clamped below 6) and
minute. -/
def tripDepartures (now : ℤ) (count : ℕ) (minutesStep : ℤ)
    (hourDraw minuteDraw : ℕ → ℕ) : List ℤ :=
  (List.range count).map (fun (k : ℕ) =>
    replaceTime (tripStart now + (k : ℤ) * minutesStep)
      (clampHour (hourDraw k)) (minuteDraw k))

/-- C4 counterexample: identical seed (identical draw streams: hour 8,
minute 0 for every trip) and identical reference data, but two runs started
one day apart produce different departure timestamps: the generated values
also depend on the wall clock (`datetime.now()`), not only on the seed and
the reference data. -/
theorem determinism_seed_only_counterexample :
    tripDepartures (730 * 1440) 1 10 (fun _ => 8) (fun _ => 0)
      ≠ tripDepartures (730 * 1440 + 1440) 1 10 (fun _ => 8) (fun _ => 0) := by
  decide

/-- C4 amended: the generation is a pure function of the seeded random
streams, the reference data (trip count and step) and the wall-clock reading:
two runs agreeing on all of these produce identical outputs. -/
theorem determinism_with_clock (now1 now2 : ℤ) (count1 count2 : ℕ)
    (step1 step2 : ℤ) (hd1 hd2 md1 md2 : ℕ → ℕ)
    (hnow : now1 = now2) (hcount : count1 = count2) (hstep : step1 = step2)
    (hh : hd1 = hd2) (hm : md1 = md2) :
    tripDepartures now1 count1 step1 hd1 md1
      = tripDepartures now2 count2 step2 hd2 md2 := by
  subst hnow hcount hstep hh hm
  rfl

/-- Witness for the amended C4 at concrete equal inputs. -/
theorem determinism_with_clock_witness :
    (0 : ℤ) = 0 ∧
    tripDepartures 0 2 10 (fun _ => 8) (fun _ => 30)
      = tripDepartures 0 2 10 (fun _ => 8) (fun _ => 30) :=
  ⟨rfl, determinism_with_clock 0 0 2 2 10 10 (fun _ => 8) (fun _ => 8)
    (fun _ => 30) (fun _ => 30) rfl rfl rfl rfl rfl⟩

/-! ### Delivery tracking numbers (`generate_deliveries`)

`tracking = f"FL{year}{str(counter).zfill(8)}"`, `counter` incremented once
per delivery.  The string is modelled by its variable parts: the year and the
digit sequence of `str(counter).zfill(8)` (big-endian decimal digits,
left-padded with zeros to width 8). -/

/-- `str(c).zfill(8)` as a digit list (most significant digit first). -/
def zfill8 (c : ℕ) : List ℕ :=
  List.replicate (8 - (Nat.digits 10 c).length) 0 ++ (Nat.digits 10 c).reverse

/-- The tracking number `f"FL{year}{str(c).zfill(8)}"`, as the pair of its
variable parts after the fixed `"FL"`. -/
def trackingNumber (year c : ℕ) : ℕ × List ℕ := (year, zfill8 c)

/-- Numeric value of a big-endian digit string. -/
def decodeDigits (l : List ℕ) : ℕ := Nat.ofDigits 10 l.reverse

theorem ofDigits_replicate_zero : ∀ n : ℕ,
    Nat.ofDigits 10 (List.replicate n 0) = 0
  | 0 => by simp [Nat.ofDigits]
  | n + 1 => by
    rw [List.replicate_succ, Nat.ofDigits_cons, ofDigits_replicate_zero n]

theorem decode_zfill8 (c : ℕ) : decodeDigits (zfill8 c) = c := by
  unfold decodeDigits zfill8
  rw [List.reverse_append, List.reverse_reverse, List.reverse_replicate,
    Nat.ofDigits_append, Nat.ofDigits_digits, ofDigits_replicate_zero]
  ring

/-- The tracking numbers assigned in one run of `generate_deliveries`:
delivery `k` (0-based) gets counter value `k + 1`. -/
def deliveryTrackingNumbers (year total : ℕ) : List (ℕ × List ℕ) :=
  (List.range total).map (fun k => trackingNumber year (k + 1))

/-- C10: within a single generation run all delivery tracking numbers are
pairwise distinct: the global counter is strictly incremented once per
delivery, and the zero-padded digit string keeps the counter value
recoverable, so no two deliveries share a tracking number. -/
theorem tracking_numbers_distinct (year total : ℕ) :
    (deliveryTrackingNumbers year total).Nodup := by
  refine List.Nodup.map ?_ (List.nodup_range total)
  intro a b hab
  have h2 : zfill8 (a + 1) = zfill8 (b + 1) := congrArg Prod.snd hab
  have h3 := congrArg decodeDigits h2
  rw [decode_zfill8, decode_zfill8] at h3
  omega

end FleetLogix
